import Mathlib

/-!
Shallow embedding of `scripts/gmail-extractor/main.py` (Gmail → Markdown
chapter exporter) and proofs about its specified behaviour.

Python strings are modelled as Lean `String` (a sequence of Unicode scalar
values, matching CPython's `str`), bytes as `List Nat` (each < 256), and
raised exceptions as `Except Unit`.
-/

namespace GmailExtractor

/-! ## Python string primitives used by the script -/

/-- The set of characters matched by Python's `\s` regex class on `str`
and stripped by `str.strip()`: the Unicode white-space characters. -/
def isPySpace (c : Char) : Bool :=
  c.toNat ∈ [9, 10, 11, 12, 13, 28, 29, 30, 31, 32, 133, 160,
    0x1680, 0x2000, 0x2001, 0x2002, 0x2003, 0x2004, 0x2005, 0x2006,
    0x2007, 0x2008, 0x2009, 0x200a, 0x2028, 0x2029, 0x202f, 0x205f, 0x3000]

/-- `str.strip()` on the character list: drop whitespace from both ends. -/
def pyStripL (l : List Char) : List Char :=
  ((l.dropWhile isPySpace).reverse.dropWhile isPySpace).reverse

/-- Model of Python `str.strip()`. -/
def pyStrip (s : String) : String :=
  ⟨pyStripL s.data⟩

/-- Model of `re.sub(r"[class]+", repl, s)` for a single-character
replacement: each maximal nonempty run of characters satisfying `p` is
replaced by the single character `r`.  The `inRun` flag records whether the
previous input character was part of a run already replaced. -/
def collapseRuns (p : Char → Bool) (r : Char) : Bool → List Char → List Char
  | _, [] => []
  | inRun, c :: cs =>
    if p c then
      if inRun then collapseRuns p r true cs
      else r :: collapseRuns p r true cs
    else c :: collapseRuns p r false cs

/-! ## `sanitize_filename` (main.py lines 25–31) -/

/-- The characters removed by `re.sub(r"[\\/:*?\"<>|]+", "-", name)`. -/
def isForbidden (c : Char) : Bool :=
  c = '\\' || c = '/' || c = ':' || c = '*' || c = '?' || c = '\"' ||
  c = '<' || c = '>' || c = '|'

/-- Model of `sanitize_filename(name, max_len)` (the script calls it with
the default `max_len = 140`): strip, collapse forbidden-character runs to
`-`, collapse whitespace runs to a single space, truncate to `max_len`
characters, strip again, and fall back to `"sem-titulo"` when empty. -/
def sanitize_filename (name : String) (max_len : Nat) : String :=
  let l0 := pyStripL name.data
  let l1 := collapseRuns isForbidden '-' false l0
  let l2 := collapseRuns isPySpace ' ' false l1
  let l3 := pyStripL (l2.take max_len)
  if l3 = [] then "sem-titulo" else ⟨l3⟩

/-- `true` when the last character of `l` (if any) does not satisfy `p`. -/
def lastNot (p : Char → Bool) (l : List Char) : Bool :=
  match l.getLast? with
  | some c => !p c
  | none => true

/-- `true` when the first character of `l` (if any) does not satisfy `p`. -/
def headNot (p : Char → Bool) (l : List Char) : Bool :=
  match l.head? with
  | some c => !p c
  | none => true

/-- The filesystem-safety invariant claimed for `sanitize_filename` output:
nonempty, at most 140 characters, no forbidden character, and no leading or
trailing whitespace. -/
def filenameSafe (s : String) : Bool :=
  !(s == "") && decide (s.length ≤ 140) &&
  s.data.all (fun c => !isForbidden c) &&
  headNot isPySpace s.data && lastNot isPySpace s.data

/-! ## base64url decoding (`decode_b64url`, main.py lines 58–65) -/

/-- UTF-8 encoding of one Unicode scalar value (as in `str.encode("utf-8")`). -/
def utf8Bytes (c : Char) : List Nat :=
  let n := c.toNat
  if n < 0x80 then [n]
  else if n < 0x800 then [0xC0 + n / 64, 0x80 + n % 64]
  else if n < 0x10000 then [0xE0 + n / 4096, 0x80 + n / 64 % 64, 0x80 + n % 64]
  else [0xF0 + n / 262144, 0x80 + n / 4096 % 64, 0x80 + n / 64 % 64, 0x80 + n % 64]

/-- UTF-8 encoding of a character sequence (`str.encode("utf-8")`). -/
def utf8Encode : List Char → List Nat
  | [] => []
  | c :: cs => utf8Bytes c ++ utf8Encode cs

/-- The byte translation done by `base64.urlsafe_b64decode`:
`-` (45) ↦ `+` (43) and `_` (95) ↦ `/` (47). -/
def urlsafeTranslate (b : Nat) : Nat :=
  if b = 45 then 43 else if b = 95 then 47 else b

/-- `binascii`'s base64 alphabet table: the 6-bit value of a data byte,
`none` for non-alphabet bytes (which non-strict mode ignores). -/
def b64val (b : Nat) : Option Nat :=
  if 65 ≤ b ∧ b ≤ 90 then some (b - 65)
  else if 97 ≤ b ∧ b ≤ 122 then some (b - 97 + 26)
  else if 48 ≤ b ∧ b ≤ 57 then some (b - 48 + 52)
  else if b = 43 then some 62
  else if b = 47 then some 63
  else none

/-- Model of CPython's `binascii.a2b_base64` main loop in non-strict mode:
`qp` is the position inside the current quad, `lc` the pending bits, and
`pads` the number of `=` bytes seen since the last data byte.  A pad byte
(61) at quad position ≥ 2 that completes the quad ends decoding
successfully and discards the rest; non-alphabet bytes are skipped; input
ending in the middle of a quad raises `binascii.Error`. -/
def a2b_base64 : List Nat → Nat → Nat → Nat → Except Unit (List Nat)
  | [], qp, _, _ => if qp = 0 then .ok [] else .error ()
  | b :: bs, qp, lc, pads =>
    if b = 61 then
      if 2 ≤ qp then
        if 4 ≤ qp + (pads + 1) then .ok []
        else a2b_base64 bs qp lc (pads + 1)
      else a2b_base64 bs qp lc pads
    else
      match b64val b with
      | none => a2b_base64 bs qp lc pads
      | some v =>
        match qp with
        | 0 => a2b_base64 bs 1 v 0
        | 1 => (a2b_base64 bs 2 (v % 16) 0).map (fun r => (lc * 4 + v / 16) :: r)
        | 2 => (a2b_base64 bs 3 (v % 4) 0).map (fun r => (lc * 16 + v / 4) :: r)
        | _ => (a2b_base64 bs 0 0 0).map (fun r => (lc * 64 + v) :: r)

/-- Is `b` a UTF-8 continuation byte (`0x80`–`0xBF`)? -/
def isCont (b : Nat) : Bool := 0x80 ≤ b && b ≤ 0xBF

/-- The replacement character U+FFFD. -/
def repChar : Nat := 0xFFFD

/-- Model of `bytes.decode("utf-8", errors="replace")`: decode to Unicode
scalar values, substituting one U+FFFD for each maximal invalid subpart
(CPython follows the Unicode maximal-subpart practice).  The `fuel`
argument makes the recursion structural; it only needs to be at least the
length of the byte list, and each step consumes at least one byte. -/
def utf8ReplaceGo : Nat → List Nat → List Nat
  | 0, _ => []
  | _, [] => []
  | fuel + 1, b :: bs =>
    if b < 0x80 then b :: utf8ReplaceGo fuel bs
    else if b < 0xC2 then repChar :: utf8ReplaceGo fuel bs
    else if b ≤ 0xDF then
      match bs with
      | [] => [repChar]
      | b2 :: bs2 =>
        if isCont b2 then ((b - 0xC0) * 64 + (b2 - 0x80)) :: utf8ReplaceGo fuel bs2
        else repChar :: utf8ReplaceGo fuel (b2 :: bs2)
    else if b ≤ 0xEF then
      -- three-byte sequences: the admissible second byte depends on the
      -- first (E0: A0–BF, ED: 80–9F, otherwise 80–BF)
      match bs with
      | [] => [repChar]
      | b2 :: bs2 =>
        if (if b = 0xE0 then 0xA0 else 0x80) ≤ b2 ∧
            b2 ≤ (if b = 0xED then 0x9F else 0xBF) then
          match bs2 with
          | [] => [repChar]
          | b3 :: bs3 =>
            if isCont b3 then
              ((b - 0xE0) * 4096 + (b2 - 0x80) * 64 + (b3 - 0x80)) ::
                utf8ReplaceGo fuel bs3
            else repChar :: utf8ReplaceGo fuel (b3 :: bs3)
        else repChar :: utf8ReplaceGo fuel (b2 :: bs2)
    else if b ≤ 0xF4 then
      -- four-byte sequences (F0: 90–BF, F4: 80–8F, otherwise 80–BF)
      match bs with
      | [] => [repChar]
      | b2 :: bs2 =>
        if (if b = 0xF0 then 0x90 else 0x80) ≤ b2 ∧
            b2 ≤ (if b = 0xF4 then 0x8F else 0xBF) then
          match bs2 with
          | [] => [repChar]
          | b3 :: bs3 =>
            if isCont b3 then
              match bs3 with
              | [] => [repChar]
              | b4 :: bs4 =>
                if isCont b4 then
                  ((b - 0xF0) * 262144 + (b2 - 0x80) * 4096 +
                    (b3 - 0x80) * 64 + (b4 - 0x80)) :: utf8ReplaceGo fuel bs4
                else repChar :: utf8ReplaceGo fuel (b4 :: bs4)
            else repChar :: utf8ReplaceGo fuel (b3 :: bs3)
        else repChar :: utf8ReplaceGo fuel (b2 :: bs2)
    else repChar :: utf8ReplaceGo fuel bs

/-- `bytes.decode("utf-8", errors="replace")` on a byte list. -/
def utf8DecodeReplace (l : List Nat) : List Nat := utf8ReplaceGo l.length l

/-- Turn decoded scalar values back into a string. -/
def scalarsToString (l : List Nat) : String := ⟨l.map Char.ofNat⟩

/-- The padding `decode_b64url` appends when the input length is not a
multiple of 4 (`data += "=" * (4 - missing_padding)`). -/
def b64AutoPad (data : String) : String :=
  if data.length % 4 = 0 then data
  else data ++ ⟨List.replicate (4 - data.length % 4) '='⟩

/-- Model of `decode_b64url` (main.py lines 58–65): empty input returns ""
at once; otherwise the input is padded with `=` to a multiple of 4,
translated from the URL-safe alphabet, run through `binascii.a2b_base64`,
and the resulting bytes decoded as UTF-8 with `errors="replace"`.  A
`binascii.Error` (here `.error ()`) propagates to the caller. -/
def decode_b64url (data : String) : Except Unit String :=
  if data = "" then .ok ""
  else
    (a2b_base64 ((utf8Encode (b64AutoPad data).data).map urlsafeTranslate) 0 0 0).map
      (fun bytes => scalarsToString (utf8DecodeReplace bytes))

/-- Characters of the URL-safe base64 alphabet. -/
def isB64UrlChar (c : Char) : Bool :=
  (65 ≤ c.toNat && c.toNat ≤ 90) || (97 ≤ c.toNat && c.toNat ≤ 122) ||
  (48 ≤ c.toNat && c.toNat ≤ 57) || c.toNat = 45 || c.toNat = 95

/-! ## `extract_best_body` (main.py lines 76–107) -/

/-- A node of a Gmail message-part tree: the `mimeType` field, the
`body.data` payload, and the ordered `parts` children. -/
inductive MessagePart where
  | mk : Option String → Option String → List MessagePart → MessagePart
deriving Repr

/-- Python truthiness of an optional string: `None` and `""` are falsy. -/
def strTruthy : Option String → Bool
  | none => false
  | some s => !(s == "")

mutual
/-- Model of `extract_best_body` on one part: a `text/html` part with a
truthy payload returns `(decoded, None)`; a `text/plain` part with a
truthy payload returns `(None, decoded)`; otherwise the children are
scanned.  An exception from `decode_b64url` propagates. -/
def extract_part : MessagePart → Except Unit (Option String × Option String)
  | .mk mime data parts =>
    if mime == some "text/html" && strTruthy data then
      (decode_b64url (data.getD "")).map (fun s => (some s, none))
    else if mime == some "text/plain" && strTruthy data then
      (decode_b64url (data.getD "")).map (fun s => (none, some s))
    else extract_children parts none none

/-- The `for p in parts` loop of `extract_best_body`: recurse into each
child in order and keep the first truthy candidate per slot, never
overwriting one already set. -/
def extract_children : List MessagePart → Option String → Option String →
    Except Unit (Option String × Option String)
  | [], hc, tc => .ok (hc, tc)
  | p :: rest, hc, tc =>
    match extract_part p with
    | .error e => .error e
    | .ok (h, t) =>
      extract_children rest
        (if strTruthy h && !(strTruthy hc) then h else hc)
        (if strTruthy t && !(strTruthy tc) then t else tc)
end

/-- Model of `extract_best_body(payload)` itself: a false-y payload (the
`None` / `{}` case) yields `(None, None)` at once.  (An empty dict behaves
exactly like a part with no fields, which also yields `(None, None)`.) -/
def extract_best_body : Option MessagePart → Except Unit (Option String × Option String)
  | none => .ok (none, none)
  | some p => extract_part p

mutual
/-- Claim-side definition: the payload of the leftmost node in depth-first
order whose media type is exactly `target` and whose payload is truthy. -/
def firstData (target : String) : MessagePart → Option String
  | .mk mime data parts =>
    if mime == some target && strTruthy data then data
    else firstDataList target parts

/-- `firstData` over a list of children, in order. -/
def firstDataList (target : String) : List MessagePart → Option String
  | [] => none
  | p :: ps => (firstData target p).or (firstDataList target ps)
end

mutual
/-- Hypothesis of the amended C1: every node with a truthy payload is a
leaf (the spec's MessagePart invariant) whose payload decodes without an
exception to a non-empty string. -/
def goodTree : MessagePart → Bool
  | .mk _ data parts =>
    (match data with
     | none => true
     | some d =>
       (d == "") ||
       (parts.isEmpty &&
         (match decode_b64url d with
          | .ok r => !(r == "")
          | .error _ => false)))
    && goodList parts

/-- `goodTree` for every member of a list. -/
def goodList : List MessagePart → Bool
  | [] => true
  | p :: ps => goodTree p && goodList ps
end

/-- The successfully decoded value of a payload (`""` on error). -/
def decVal (d : String) : String := ((decode_b64url d).toOption).getD ""

/-- C1 counterexample tree: a multipart container whose first child is a
`text/plain` leaf with the undecodable payload `"a"` and whose second
child is a `text/html` leaf with payload `"aGk="` (decoding to `"hi"`). -/
def cexTree : MessagePart :=
  .mk (some "multipart/alternative") none
    [.mk (some "text/plain") (some "a") [],
     .mk (some "text/html") (some "aGk=") []]

/-- C1 witness tree: a multipart container with a `text/plain` leaf
(payload `"dGV4dA=="`, i.e. `"text"`) before a `text/html` leaf
(payload `"aGk="`, i.e. `"hi"`). -/
def witTree : MessagePart :=
  .mk (some "multipart/alternative") none
    [.mk (some "text/plain") (some "dGV4dA==") [],
     .mk (some "text/html") (some "aGk=") []]

/-! ## `yaml_safe` and `build_markdown` (main.py lines 34–36, 170–197) -/

/-- Model of `yaml_safe(s)`: replace every double quote by a single quote
(`Char.ofNat 39`), then strip. -/
def yaml_safe (s : String) : String :=
  pyStrip ⟨s.data.map (fun c => if c = '\"' then Char.ofNat 39 else c)⟩

/-- Model of `sep.join(parts)`. -/
def pyJoin (sep : String) : List String → String
  | [] => ""
  | [x] => x
  | x :: y :: rest => x ++ sep ++ pyJoin sep (y :: rest)

/-- Model of `build_markdown(subject, from_, to, date_str, message_id,
content_md)`: the front-matter line list (with the conditional date line)
joined by newlines, then the stripped body and one final newline. -/
def build_markdown (subject from_ to_ date_str message_id content_md : String) : String :=
  let fm : List String :=
    ["---",
     "title: \"" ++ yaml_safe subject ++ "\"",
     "from: \"" ++ yaml_safe from_ ++ "\"",
     "to: \"" ++ yaml_safe to_ ++ "\"",
     (if !(date_str == "") then "date: \"" ++ yaml_safe date_str ++ "\""
      else "date: \"\""),
     "message_id: \"" ++ yaml_safe message_id ++ "\"",
     "source: gmail",
     "---",
     "",
     "# " ++ yaml_safe subject,
     ""]
  pyJoin "\n" fm ++ pyStrip content_md ++ "\n"

/-! ## Fetch collection and chronological ordering (main.py lines 223–242) -/

/-- One fetched Gmail message, as used by the Orderer: its identifier and
the optional `internalDate` field. -/
structure GMsg where
  msgId : String
  internalDate : Option String
deriving Repr, DecidableEq

/-- Digit-run parser for Python `int(str)`: ASCII digits, with single
underscores permitted between digits (`int("1_0") == 10`). -/
def pyDigitsGo : List Char → Nat → Option Nat
  | [], acc => some acc
  | c :: cs, acc =>
    if c.isDigit then pyDigitsGo cs (acc * 10 + (c.toNat - 48))
    else if c = '_' then
      match cs with
      | [] => none
      | d :: cs2 =>
        if d.isDigit then pyDigitsGo cs2 ((acc * 10 + (d.toNat - 48)))
        else none
    else none

/-- Model of Python `int(s)` on a `str`: optional surrounding whitespace,
an optional sign, then a nonempty ASCII digit run with Python's
underscore rule; everything else raises `ValueError` (`.error ()`). -/
def pyInt (s : String) : Except Unit Int :=
  match pyStripL s.data with
  | [] => .error ()
  | c :: cs =>
    let signDigits : Bool × List Char :=
      if c = '-' then (true, cs)
      else if c = '+' then (false, cs)
      else (false, c :: cs)
    match signDigits.2 with
    | [] => .error ()
    | d :: ds =>
      if d.isDigit then
        match pyDigitsGo (d :: ds) 0 with
        | some n => .ok (if signDigits.1 then -(n : Int) else (n : Int))
        | none => .error ()
      else .error ()

/-- The sort key `int(x.get("internalDate", "0"))`. -/
def msgKey (m : GMsg) : Except Unit Int :=
  pyInt (m.internalDate.getD "0")

/-- The key's value, defaulting to 0 (used only to state properties). -/
def keyOf (m : GMsg) : Int := ((msgKey m).toOption).getD 0

/-- Stable insertion into an ascending list: the new element goes before
the first strictly-later position, i.e. before any element with a larger
key and after all earlier elements with a smaller key, and — crucially for
stability — before none of the equal-keyed elements it is inserted
behind. -/
def insertStable (x : GMsg × Int) : List (GMsg × Int) → List (GMsg × Int)
  | [] => [x]
  | y :: ys => if x.2 ≤ y.2 then x :: y :: ys else y :: insertStable x ys

/-- Stable ascending insertion sort by key.  Any stable sort produces the
same permutation as CPython's Timsort for the same keys, so this is a
faithful model of `list.sort(key=...)`. -/
def sortByKey : List (GMsg × Int) → List (GMsg × Int)
  | [] => []
  | x :: xs => insertStable x (sortByKey xs)

/-- CPython's `list.sort(key=f)` first computes the key of every element
(in list order), raising if any key computation raises. -/
def attachKeys : List GMsg → Except Unit (List (GMsg × Int))
  | [] => .ok []
  | m :: ms =>
    match msgKey m with
    | .error e => .error e
    | .ok k => (attachKeys ms).map (fun rest => (m, k) :: rest)

/-- The fetch loop: `try: full_msgs.append(gmail_get_message(...)) except
HttpError: ...` — failed fetches are reported and skipped. -/
def collectSuccesses (results : List (Except Unit GMsg)) : List GMsg :=
  results.filterMap (fun r => r.toOption)

/-- Model of the Fetcher & Orderer (fetch loop plus
`full_msgs.sort(key=lambda x: int(x.get("internalDate", "0")))`). -/
def fetch_and_sort (results : List (Except Unit GMsg)) : Except Unit (List GMsg) :=
  match attachKeys (collectSuccesses results) with
  | .error e => .error e
  | .ok keyed => .ok ((sortByKey keyed).map (fun x => x.1))

/-! ## `gmail_list_all` (main.py lines 131–163) -/

/-- An abstract `users().messages().list` endpoint: given the query, the
current page token and the requested page size, it returns a batch of
message ids and an optional next-page token. -/
def GmailServer : Type := String → Option String → Nat → List String × Option String

/-- Python truthiness of the `nextPageToken` value (`if not page_token`):
an absent or empty token stops the loop. -/
def tokTruthy : Option String → Bool
  | none => false
  | some t => !(t == "")

/-- The `while True` pagination loop of `gmail_list_all`, with explicit
fuel (against a misbehaving server that always returns a token and empty
batches the Python loop runs forever; every claim quantifies over or
fixes the fuel).  Returns the accumulated ids, the log of issued requests
as (token, page size) pairs, and whether the loop exited by its own break
conditions rather than by fuel exhaustion. -/
def listLoop (server : GmailServer) (query : String) (maxResults : Int) :
    Nat → List String → Option String → List (Option String × Nat) →
    List String × List (Option String × Nat) × Bool
  | 0, msgs, _, log => (msgs, log, false)
  | fuel + 1, msgs, tok, log =>
    let remaining : Int := maxResults - msgs.length
    if remaining ≤ 0 then (msgs, log, true)
    else
      let pageSize := (min 500 remaining).toNat
      let resp := server query tok pageSize
      let msgs' := msgs ++ resp.1
      let log' := log ++ [(tok, pageSize)]
      if tokTruthy resp.2 then listLoop server query maxResults fuel msgs' resp.2 log'
      else (msgs', log', true)

/-- Model of `gmail_list_all(service, query, max_results)`. -/
def gmail_list_all (server : GmailServer) (query : String) (maxResults : Int)
    (fuel : Nat) : List String × List (Option String × Nat) × Bool :=
  listLoop server query maxResults fuel [] none []

/-- A server with unboundedly many matching messages: every page request
is answered with a full batch and a continuation token. -/
def fullServer : GmailServer := fun _ _ n => (List.replicate n "m", some "TOK")

/-- A server that never offers a continuation token. -/
def oneShotServer : GmailServer := fun _ _ n => (List.replicate n "m", none)

/-! ## `html_to_markdown` (main.py lines 110–118)

Model of `BeautifulSoup(html, "html.parser")`, tag decomposition,
serialization, and the markdownify conversion (which itself re-parses the
serialized HTML).  Recursions over nested trees use explicit fuel so that
everything reduces in the kernel; the fuel is always instantiated large
enough (list length or `sizeOf`). -/

/-- A node of the parsed HTML tree: elements (name, attributes,
children), text, comments, and declarations / doctypes / processing
instructions grouped as `decl`. -/
inductive HNode where
  | elem (name : String) (attrs : List (String × String)) (children : List HNode)
  | htext (s : String)
  | comment (s : String)
  | decl (s : String)
deriving Repr

/-- Tokens produced by the `html.parser` tokenizer. -/
inductive HTok where
  | tstart (name : String) (attrs : List (String × String)) (selfClosing : Bool)
  | tend (name : String)
  | ttext (s : String)
  | tcomment (s : String)
  | tdecl (s : String)
deriving Repr

/-- HTML whitespace (space, tab, LF, CR, FF). -/
def isHtmlWs (c : Char) : Bool :=
  c = ' ' || c = '\t' || c = '\n' || c = '\r' || c.toNat = 12

/-- ASCII letter test (a tag must start with one). -/
def isAsciiLetter (c : Char) : Bool :=
  (65 ≤ c.toNat && c.toNat ≤ 90) || (97 ≤ c.toNat && c.toNat ≤ 122)

/-- Characters allowed after the first in a tag name
(`tagfind_tolerant`: anything except whitespace, `/`, `>`). -/
def isNameChar (c : Char) : Bool :=
  !(isHtmlWs c || c = '/' || c = '>')

/-- Characters of an attribute name (anything except whitespace, `/`,
`=`, `>`). -/
def isAttrNameChar (c : Char) : Bool :=
  !(isHtmlWs c || c = '/' || c = '=' || c = '>')

/-- Lower-case a character list (tag names are case-insensitive). -/
def lowerList (l : List Char) : List Char := l.map Char.toLower

/-- Skip leading HTML whitespace. -/
def skipHtmlWs (l : List Char) : List Char := l.dropWhile isHtmlWs

/-- Decimal character-reference body up to `;`. -/
def readDecGo : Nat → List Char → Nat → Option (Nat × List Char)
  | 0, _, _ => none
  | _, [], _ => none
  | f + 1, c :: cs, acc =>
    if c = ';' then some (acc, cs)
    else if c.isDigit then readDecGo f cs (acc * 10 + (c.toNat - 48))
    else none

/-- Match a character reference right after a `&`: the common named
references and decimal numeric ones (as `convert_charrefs` does; rarer
names are left verbatim, which only affects plain text content). -/
def matchEntity (cs : List Char) : Option (Nat × List Char) :=
  if "lt;".data.isPrefixOf cs then some (60, cs.drop 3)
  else if "gt;".data.isPrefixOf cs then some (62, cs.drop 3)
  else if "amp;".data.isPrefixOf cs then some (38, cs.drop 4)
  else if "quot;".data.isPrefixOf cs then some (34, cs.drop 5)
  else if "apos;".data.isPrefixOf cs then some (39, cs.drop 5)
  else
    match cs with
    | c :: rest =>
      if c = '#' then
        match rest with
        | d :: _ => if d.isDigit then readDecGo (rest.length + 1) rest 0 else none
        | [] => none
      else none
    | [] => none

/-- Replace character references in a text run. -/
def decodeEntitiesGo : Nat → List Char → List Char
  | 0, cs => cs
  | _, [] => []
  | f + 1, c :: cs =>
    if c = '&' then
      match matchEntity cs with
      | some (cp, rest) => Char.ofNat cp :: decodeEntitiesGo f rest
      | none => '&' :: decodeEntitiesGo f cs
    else c :: decodeEntitiesGo f cs

/-- Entity replacement over a character list. -/
def decodeEntities (l : List Char) : List Char := decodeEntitiesGo (l.length + 1) l

/-- Attribute list of a start tag, with quote-aware values and entity
replacement, up to the closing `>` (or `/>`).  `none` when the input ends
inside the tag (html.parser then flushes the fragment as data). -/
def readAttrs : Nat → List Char → Option (List (String × String) × Bool × List Char)
  | 0, _ => none
  | f + 1, cs0 =>
    let cs := skipHtmlWs cs0
    match cs with
    | [] => none
    | c :: rest =>
      if c = '>' then some ([], false, rest)
      else if c = '/' then
        match rest with
        | d :: rest2 => if d = '>' then some ([], true, rest2) else readAttrs f rest
        | [] => none
      else
        let an : List Char := cs.takeWhile isAttrNameChar
        let r1 := skipHtmlWs (cs.dropWhile isAttrNameChar)
        match r1 with
        | e :: r2 =>
          if e = '=' then
            let r2' := skipHtmlWs r2
            match r2' with
            | q :: r3 =>
              if q = '\"' ∨ q = Char.ofNat 39 then
                let v := r3.takeWhile (fun ch => !(ch = q))
                let r4 := (r3.dropWhile (fun ch => !(ch = q))).drop 1
                (readAttrs f r4).map
                  (fun acc => ((⟨lowerList an⟩, ⟨decodeEntities v⟩) :: acc.1, acc.2))
              else
                let v := r2'.takeWhile (fun ch => !(isHtmlWs ch || ch = '>'))
                let r4 := r2'.dropWhile (fun ch => !(isHtmlWs ch || ch = '>'))
                (readAttrs f r4).map
                  (fun acc => ((⟨lowerList an⟩, ⟨decodeEntities v⟩) :: acc.1, acc.2))
            | [] => none
          else
            -- valueless attribute
            (readAttrs f r1).map (fun acc => ((⟨lowerList an⟩, "") :: acc.1, acc.2))
        | [] => none

/-- Does `cs` (the characters after a `<` inside raw text) begin a close
tag `/  name` for the raw-text element `nm`?  (The CDATA end pattern is
`</\s*name`, case-insensitive.) -/
def matchesClose (nm : String) (cs : List Char) : Bool :=
  match cs with
  | c :: r => c = '/' && (lowerList ((skipHtmlWs r).take nm.length) == nm.data)
  | [] => false

/-- Split raw (script/style) text at the first `</ name` marker:
`(raw text, suffix starting at the marker's <)`. -/
def findRawEnd (nm : String) : List Char → Option (List Char × List Char)
  | [] => none
  | c :: cs =>
    if c = '<' && matchesClose nm cs then some ([], c :: cs)
    else (findRawEnd nm cs).map (fun pr => (c :: pr.1, pr.2))

/-- Split a comment body at the first `-->`:
`(body, rest after the marker)`; `none` when unterminated. -/
def commentSplit : Nat → List Char → Option (List Char × List Char)
  | 0, _ => none
  | _, [] => none
  | f + 1, c :: cs =>
    if c = '-' && (['-', '>'].isPrefixOf cs) then some ([], cs.drop 2)
    else (commentSplit f cs).map (fun pr => (c :: pr.1, pr.2))

/-- The `html.parser` tokenizer with `convert_charrefs=True`:
`mode = some nm` is CDATA mode inside a raw-text element `nm`
(script/style), in which no markup or references are recognized until the
matching close tag. -/
def tokenize : Nat → List Char → Option String → List HTok
  | 0, _, _ => []
  | fuel + 1, cs, some nm =>
    match findRawEnd nm cs with
    | none => if cs.isEmpty then [] else [.ttext ⟨cs⟩]
    | some (raw, rest) =>
      let after := (rest.dropWhile (fun c => !(c = '>'))).drop 1
      (if raw.isEmpty then [] else [HTok.ttext ⟨raw⟩]) ++
        HTok.tend nm :: tokenize fuel after none
  | _ + 1, [], none => []
  | fuel + 1, c :: rest, none =>
    if c = '<' then
      match rest with
      | [] => [.ttext "<"]
      | d :: rest2 =>
        if d = '!' then
          if ['-', '-'].isPrefixOf rest2 then
            match commentSplit (rest2.length + 1) (rest2.drop 2) with
            | some (body, after) => HTok.tcomment ⟨body⟩ :: tokenize fuel after none
            | none => [HTok.tcomment ⟨rest2.drop 2⟩]
          else
            let body := rest2.takeWhile (fun ch => !(ch = '>'))
            let after := (rest2.dropWhile (fun ch => !(ch = '>'))).drop 1
            HTok.tdecl ⟨body⟩ :: tokenize fuel after none
        else if d = '?' then
          let body := rest2.takeWhile (fun ch => !(ch = '>'))
          let after := (rest2.dropWhile (fun ch => !(ch = '>'))).drop 1
          HTok.tdecl ⟨body⟩ :: tokenize fuel after none
        else if d = '/' then
          if (match rest2 with
              | e :: _ => isAsciiLetter e
              | [] => false) then
            let nmc := rest2.takeWhile isNameChar
            let r1 := rest2.dropWhile isNameChar
            let after := (r1.dropWhile (fun ch => !(ch = '>'))).drop 1
            HTok.tend ⟨lowerList nmc⟩ :: tokenize fuel after none
          else
            let after := (rest2.dropWhile (fun ch => !(ch = '>'))).drop 1
            tokenize fuel after none
        else if isAsciiLetter d then
          let nmc := rest.takeWhile isNameChar
          let r1 := rest.dropWhile isNameChar
          match readAttrs (r1.length + 1) r1 with
          | none => [.ttext ⟨c :: rest⟩]
          | some (attrs, selfc, after) =>
            let nm : String := ⟨lowerList nmc⟩
            if (nm = "script" ∨ nm = "style") ∧ !selfc then
              HTok.tstart nm attrs selfc :: tokenize fuel after (some nm)
            else
              HTok.tstart nm attrs selfc :: tokenize fuel after none
        else
          HTok.ttext "<" :: tokenize fuel rest none
    else
      let txt := (c :: rest).takeWhile (fun ch => !(ch = '<'))
      let after := (c :: rest).dropWhile (fun ch => !(ch = '<'))
      HTok.ttext ⟨decodeEntities txt⟩ :: tokenize fuel after none

/-- An open-element frame of the tree builder: name, attributes, and the
children accumulated so far in reverse order. -/
def HFrame : Type := String × List (String × String) × List HNode

/-- html.parser's empty ("void") elements: their start tags never open a
frame. -/
def voidElems : List String :=
  ["area", "base", "br", "col", "embed", "hr", "img", "input", "link",
   "meta", "param", "source", "track", "wbr"]

/-- Close every still-open frame at end of input (each completed element
becomes the last child of the frame below it). -/
def collapseAll (stack : List HFrame) (roots : List HNode) : List HNode :=
  match stack.foldl
      (fun pend fr =>
        some (HNode.elem fr.1 fr.2.1
          ((match pend with
            | some n => n :: fr.2.2
            | none => fr.2.2).reverse))) none with
  | some n => (n :: roots).reverse
  | none => roots.reverse

/-- Pop frames up to and including the nearest one named `nm`
(BeautifulSoup's `_popToTag`), each closed frame becoming a child of the
frame below it. -/
def popTo (nm : String) : List HFrame → Option HNode → List HNode →
    List HFrame × List HNode
  | [], pend, roots =>
    ([], match pend with
         | some n => n :: roots
         | none => roots)
  | fr :: rest, pend, roots =>
    let kids := match pend with
      | some n => n :: fr.2.2
      | none => fr.2.2
    let n := HNode.elem fr.1 fr.2.1 kids.reverse
    if fr.1 = nm then
      match rest with
      | [] => ([], n :: roots)
      | fr2 :: rest2 => ((fr2.1, fr2.2.1, n :: fr2.2.2) :: rest2, roots)
    else popTo nm rest (some n) roots

/-- Append a completed node to the current insertion point. -/
def addLeaf (n : HNode) : List HFrame → List HNode → List HFrame × List HNode
  | [], roots => ([], n :: roots)
  | fr :: rest, roots => ((fr.1, fr.2.1, n :: fr.2.2) :: rest, roots)

/-- The BeautifulSoup tree builder over the token stream: start tags push
a frame (void and self-closing ones become leaves), end tags pop to the
matching open frame and are ignored when none matches, everything still
open is closed at end of input. -/
def buildGo : List HTok → List HFrame → List HNode → List HNode
  | [], stack, roots => collapseAll stack roots
  | t :: ts, stack, roots =>
    match t with
    | .ttext s =>
      let pr := addLeaf (HNode.htext s) stack roots
      buildGo ts pr.1 pr.2
    | .tcomment s =>
      let pr := addLeaf (HNode.comment s) stack roots
      buildGo ts pr.1 pr.2
    | .tdecl s =>
      let pr := addLeaf (HNode.decl s) stack roots
      buildGo ts pr.1 pr.2
    | .tstart nm attrs selfc =>
      if selfc || nm ∈ voidElems then
        let pr := addLeaf (HNode.elem nm attrs []) stack roots
        buildGo ts pr.1 pr.2
      else buildGo ts ((nm, attrs, []) :: stack) roots
    | .tend nm =>
      if stack.any (fun fr => fr.1 = nm) then
        let pr := popTo nm stack none roots
        buildGo ts pr.1 pr.2
      else buildGo ts stack roots

/-- `BeautifulSoup(html, "html.parser")`: tokenize and build the forest. -/
def parseHtml (s : String) : List HNode :=
  buildGo (tokenize (s.data.length + 1) s.data none) [] []

/-- The tags removed by `for tag in soup(["script", "style", "noscript"]):
tag.decompose()`. -/
def bannedNames : List String := ["script", "style", "noscript"]

/-- Remove every script/style/noscript element together with its whole
subtree.  Fueled for kernel reduction; fuel decreases on every step and
`sizeOf` of the forest always suffices. -/
def stripBannedGo : Nat → List HNode → List HNode
  | 0, _ => []
  | _, [] => []
  | fuel + 1, n :: rest =>
    match n with
    | .elem nm attrs kids =>
      if nm ∈ bannedNames then stripBannedGo fuel rest
      else HNode.elem nm attrs (stripBannedGo fuel kids) :: stripBannedGo fuel rest
    | other => other :: stripBannedGo fuel rest

/-- Minimal-formatter escaping of text content on serialization
(`&`, `<`, `>`). -/
def escTextChar (c : Char) : List Char :=
  if c = '&' then "&amp;".data
  else if c = '<' then "&lt;".data
  else if c = '>' then "&gt;".data
  else [c]

/-- Attribute-value escaping on serialization (also `"` → `&quot;`). -/
def escAttrChar (c : Char) : List Char :=
  if c = '\"' then "&quot;".data else escTextChar c

/-- One serialized attribute. -/
def serAttr (a : String × String) : List Char :=
  ' ' :: a.1.data ++ '=' :: '\"' :: a.2.data.flatMap escAttrChar ++ ['\"']

/-- `str(soup)`: serialize the forest back to HTML (fueled). -/
def serializeGo : Nat → List HNode → List Char
  | 0, _ => []
  | _, [] => []
  | fuel + 1, n :: rest =>
    (match n with
     | .htext s => s.data.flatMap escTextChar
     | .comment s => "<!--".data ++ s.data ++ "-->".data
     | .decl s => "<!".data ++ s.data ++ ">".data
     | .elem nm attrs kids =>
       if nm ∈ voidElems then
         '<' :: nm.data ++ attrs.flatMap serAttr ++ "/>".data
       else
         '<' :: nm.data ++ attrs.flatMap serAttr ++ '>' ::
           serializeGo fuel kids ++ "</".data ++ nm.data ++ [">"].flatMap String.data) ++
    serializeGo fuel rest

/-- markdownify's escaping of `*` and `_` in text. -/
def mdEscapeChar (c : Char) : List Char :=
  if c = '*' ∨ c = '_' then ['\\', c] else [c]

/-- markdownify's text processing: collapse runs of spaces/tabs, then
escape markdown metacharacters. -/
def mdText (s : String) : List Char :=
  (collapseRuns (fun c => c = ' ' || c = '\t') ' ' false s.data).flatMap mdEscapeChar

/-- ATX heading levels. -/
def headingLevel (nm : String) : Option Nat :=
  if nm = "h1" then some 1 else if nm = "h2" then some 2
  else if nm = "h3" then some 3 else if nm = "h4" then some 4
  else if nm = "h5" then some 5 else if nm = "h6" then some 6 else none

/-- The markdownify conversion walk (`heading_style="ATX"`): comments and
doctypes are skipped, known tags get their markdown, unknown tags pass
their converted children through. -/
def convertGo : Nat → List HNode → List Char
  | 0, _ => []
  | _, [] => []
  | fuel + 1, n :: rest =>
    (match n with
     | .htext s => mdText s
     | .comment _ => []
     | .decl _ => []
     | .elem nm attrs kids =>
       let inner := convertGo fuel kids
       match headingLevel nm with
       | some lvl =>
         List.replicate lvl '#' ++ ' ' :: pyStripL inner ++ "\n\n".data
       | none =>
         if nm = "p" then inner ++ "\n\n".data
         else if nm = "br" then "  \n".data
         else if nm = "b" ∨ nm = "strong" then
           if inner.isEmpty then [] else "**".data ++ inner ++ "**".data
         else if nm = "em" ∨ nm = "i" then
           if inner.isEmpty then [] else '*' :: inner ++ ['*']
         else if nm = "a" then
           '[' :: inner ++ ']' :: '(' ::
             ((attrs.lookup "href").getD "").data ++ [')']
         else if nm = "li" then
           '*' :: ' ' :: inner ++ "\n".data
         else inner) ++
    convertGo fuel rest

/-- Model of `html_to_markdown` (main.py lines 110–118): parse, decompose
every script/style/noscript subtree, serialize, and run markdownify
(which re-parses the serialized HTML and converts with ATX headings).
The fuels bound the node-chain depth of each walk; a parsed forest never
has more nodes than its source has characters, so `length + 1` always
suffices and the walks are exact, never truncated. -/
def html_to_markdown (html : String) : String :=
  let parsed := parseHtml html
  let cleaned := stripBannedGo (html.length + 1) parsed
  let cleanedHtml : String := ⟨serializeGo (html.length + 1) cleaned⟩
  let reparsed := parseHtml cleanedHtml
  ⟨convertGo (cleanedHtml.length + 1) reparsed⟩

/-- Checker: no element of the forest (to the given depth fuel) is a
script/style/noscript element. -/
def noBannedGo : Nat → List HNode → Bool
  | 0, _ => true
  | _, [] => true
  | fuel + 1, n :: rest =>
    match n with
    | .elem nm _ kids =>
      !(nm ∈ bannedNames : Bool) && noBannedGo fuel kids && noBannedGo fuel rest
    | _ => noBannedGo fuel rest

/-- Substring test. -/
def hasSubstrL (pat : List Char) : List Char → Bool
  | [] => pat.isEmpty
  | c :: cs => pat.isPrefixOf (c :: cs) || hasSubstrL pat cs

/-- Does `s` contain `pat` as a substring? -/
def hasSubstr (s pat : String) : Bool := hasSubstrL pat.data s.data

/-! ## Basic lemmas about the string primitives -/

theorem mem_pyStripL {c : Char} {l : List Char} (h : c ∈ pyStripL l) : c ∈ l := by
  unfold pyStripL at h
  have h1 := List.mem_reverse.mp h
  have h2 := List.dropWhile_subset isPySpace h1
  have h3 := List.mem_reverse.mp h2
  exact List.dropWhile_subset isPySpace h3

theorem length_pyStripL (l : List Char) : (pyStripL l).length ≤ l.length := by
  unfold pyStripL
  have h1 : List.Sublist (l.dropWhile isPySpace) l := List.dropWhile_sublist isPySpace
  have h2 : List.Sublist ((l.dropWhile isPySpace).reverse.dropWhile isPySpace)
      (l.dropWhile isPySpace).reverse := List.dropWhile_sublist isPySpace
  have h3 := h1.length_le
  have h4 := h2.length_le
  simp only [List.length_reverse] at *
  omega

theorem head_of_dropWhile {p : Char → Bool} {l : List Char} {c : Char}
    (h : (l.dropWhile p).head? = some c) : p c = false := by
  have h' := List.head?_dropWhile_not p l
  rw [h] at h'
  exact h'

theorem head_pyStripL {l : List Char} {c : Char} (h : (pyStripL l).head? = some c) :
    isPySpace c = false := by
  have hpre : List.IsPrefix (pyStripL l) (l.dropWhile isPySpace) := by
    unfold pyStripL
    have hs : List.IsSuffix ((l.dropWhile isPySpace).reverse.dropWhile isPySpace)
        (l.dropWhile isPySpace).reverse := List.dropWhile_suffix isPySpace
    have := List.reverse_prefix.mpr hs
    simpa using this
  obtain ⟨t, ht⟩ := hpre
  rcases he : pyStripL l with _ | ⟨x, xs⟩
  · rw [he] at h; simp at h
  · rw [he] at h ht
    simp only [List.head?_cons, Option.some.injEq] at h
    rw [← h]
    have hh : (l.dropWhile isPySpace).head? = some x := by
      rw [← ht]; rfl
    exact head_of_dropWhile hh

theorem getLast_pyStripL {l : List Char} {c : Char}
    (h : (pyStripL l).getLast? = some c) : isPySpace c = false := by
  unfold pyStripL at h
  rw [List.getLast?_reverse] at h
  exact head_of_dropWhile h

theorem mem_collapseRuns {p : Char → Bool} {r c : Char} {b : Bool} {l : List Char}
    (h : c ∈ collapseRuns p r b l) : c = r ∨ (c ∈ l ∧ p c = false) := by
  induction l generalizing b with
  | nil => simp [collapseRuns] at h
  | cons x xs ih =>
    simp only [collapseRuns] at h
    by_cases hx : p x
    · simp only [hx, if_true] at h
      by_cases hb : b
      · subst hb
        simp only [if_true] at h
        rcases ih h with h' | ⟨h1, h2⟩
        · exact Or.inl h'
        · exact Or.inr ⟨List.mem_cons_of_mem _ h1, h2⟩
      · simp only [hb, if_false] at h
        rcases List.mem_cons.mp h with h' | h'
        · exact Or.inl h'
        · rcases ih h' with h'' | ⟨h1, h2⟩
          · exact Or.inl h''
          · exact Or.inr ⟨List.mem_cons_of_mem _ h1, h2⟩
    · simp only [hx, if_false] at h
      rcases List.mem_cons.mp h with h' | h'
      · subst h'
        exact Or.inr ⟨List.mem_cons_self c xs, by simpa using hx⟩
      · rcases ih h' with h'' | ⟨h1, h2⟩
        · exact Or.inl h''
        · exact Or.inr ⟨List.mem_cons_of_mem _ h1, h2⟩

theorem collapseRuns_consume {p : Char → Bool} {r : Char} {run : List Char}
    (h : ∀ c ∈ run, p c = true) (post : List Char) :
    collapseRuns p r true (run ++ post) = collapseRuns p r true post := by
  induction run with
  | nil => rfl
  | cons d run' ih =>
    have hd : p d = true := h d (List.mem_cons_self d run')
    simp only [List.cons_append, collapseRuns, hd, if_true]
    exact ih (fun c hc => h c (List.mem_cons_of_mem _ hc))

theorem collapseRuns_state {p : Char → Bool} {r : Char} {post : List Char}
    (h : headNot p post = true) :
    collapseRuns p r true post = collapseRuns p r false post := by
  cases post with
  | nil => rfl
  | cons c cs =>
    have hc : p c = false := by
      simp only [headNot, List.head?_cons] at h
      simpa using h
    simp [collapseRuns, hc]

/-- Every maximal nonempty run of characters satisfying `p` that is bordered
by non-`p` characters (or the string ends) is replaced by exactly one `r`. -/
theorem collapseRuns_split (p : Char → Bool) (r : Char) :
    ∀ (b : Bool) (pre run post : List Char),
    (∀ c ∈ run, p c = true) → run ≠ [] →
    (pre = [] → b = false) →
    lastNot p pre = true → headNot p post = true →
    collapseRuns p r b (pre ++ run ++ post) =
      collapseRuns p r b pre ++ r :: collapseRuns p r false post := by
  intro b pre
  induction pre generalizing b with
  | nil =>
    intro run post h1 h2 h3 _ h5
    rcases run with _ | ⟨d, run'⟩
    · exact absurd rfl h2
    · have hb : b = false := h3 rfl
      subst hb
      have hd : p d = true := h1 d (List.mem_cons_self d run')
      simp only [List.nil_append, List.cons_append, collapseRuns, hd, if_true,
        if_false, Bool.false_eq_true, List.append_eq]
      rw [collapseRuns_consume (fun c hc => h1 c (List.mem_cons_of_mem _ hc)),
        collapseRuns_state h5]
  | cons a pre' ih =>
    intro run post h1 h2 _ h4 h5
    by_cases ha : p a = true
    · have hne : pre' ≠ [] := by
        intro he
        subst he
        simp only [lastNot, List.getLast?_singleton] at h4
        rw [ha] at h4
        simp at h4
      have h4' : lastNot p pre' = true := by
        unfold lastNot at h4 ⊢
        rcases pre' with _ | ⟨x, xs⟩
        · exact absurd rfl hne
        · rwa [List.getLast?_cons_cons] at h4
      cases b with
      | false =>
        simp only [List.cons_append, collapseRuns, ha, if_true, if_false,
          Bool.false_eq_true, List.append_eq]
        rw [ih true run post h1 h2 (fun he => absurd he hne) h4' h5]
      | true =>
        simp only [List.cons_append, collapseRuns, ha, if_true, List.append_eq]
        rw [ih true run post h1 h2 (fun he => absurd he hne) h4' h5]
    · have ha' : p a = false := by simpa using ha
      have h4' : lastNot p pre' = true := by
        unfold lastNot at h4 ⊢
        rcases hp : pre' with _ | ⟨x, xs⟩
        · rfl
        · rw [← hp]
          rw [hp] at h4 ⊢
          rwa [List.getLast?_cons_cons] at h4
      simp only [List.cons_append, collapseRuns, ha', if_false, Bool.false_eq_true,
        List.append_eq]
      rw [ih false run post h1 h2 (fun _ => rfl) h4' h5]

/-- C9: for every input string, `sanitize_filename` (at the script's
maximum length 140) returns a nonempty string of at most 140 characters
containing none of `\ / : * ? " < > |`, with no leading or trailing
whitespace. -/
theorem sanitize_filename_invariant (name : String) :
    filenameSafe (sanitize_filename name 140) = true := by
  unfold sanitize_filename
  set l2 := collapseRuns isPySpace ' ' false
    (collapseRuns isForbidden '-' false (pyStripL name.data)) with hl2
  by_cases h : pyStripL (l2.take 140) = []
  · simp only [h, if_true]
    decide
  · simp only [h, if_false]
    have hdata : (String.mk (pyStripL (l2.take 140))).data = pyStripL (l2.take 140) := rfl
    simp only [filenameSafe, Bool.and_eq_true, hdata]
    refine ⟨⟨⟨⟨?_, ?_⟩, ?_⟩, ?_⟩, ?_⟩
    · simp only [Bool.not_eq_eq_eq_not, Bool.not_true, beq_eq_false_iff_ne, ne_eq]
      intro heq
      exact h (congrArg String.data heq)
    · simp only [decide_eq_true_eq]
      have h1 : (pyStripL (l2.take 140)).length ≤ (l2.take 140).length :=
        length_pyStripL _
      have h2 : (l2.take 140).length ≤ 140 := by
        rw [List.length_take]
        exact Nat.min_le_left _ _
      calc (String.mk (pyStripL (l2.take 140))).length
          = (pyStripL (l2.take 140)).length := rfl
        _ ≤ 140 := Nat.le_trans h1 h2
    · rw [List.all_eq_true]
      intro c hc
      have hc2 := mem_pyStripL hc
      have hc3 : c ∈ l2 := List.take_subset _ _ hc2
      rcases mem_collapseRuns hc3 with rfl | ⟨hc4, _⟩
      · decide
      · rcases mem_collapseRuns hc4 with rfl | ⟨_, hf⟩
        · decide
        · simp [hf]
    · unfold headNot
      rcases hh : (pyStripL (l2.take 140)).head? with _ | ⟨c⟩
      · rfl
      · simp [head_pyStripL hh]
    · unfold lastNot
      rcases hh : (pyStripL (l2.take 140)).getLast? with _ | ⟨c⟩
      · rfl
      · simp [getLast_pyStripL hh]

/-! ## C3: forbidden-character replacement in `sanitize_filename` -/

/-- C3 (counterexample): `sanitize_filename` does **not** replace each
forbidden character 1:1 — the regex `[\\/:*?"<>|]+` collapses the adjacent
run `*?` into a single `-`, so `My/Bad:Title*?` yields `My-Bad-Title-`,
not the claimed `My-Bad-Title--`. -/
theorem sanitize_filename_cex :
    sanitize_filename "My/Bad:Title*?" 140 = "My-Bad-Title-" ∧
    sanitize_filename "My/Bad:Title*?" 140 ≠ "My-Bad-Title--" := by
  decide

/-- C3 (amended): each maximal nonempty run of forbidden characters
(bordered by non-forbidden characters or the ends of the string) is
replaced by exactly one `-`; in particular `My/Bad:Title*?` sanitizes to
`My-Bad-Title-`. -/
theorem sanitize_filename_run_semantics :
    (∀ (pre run post : List Char),
      (∀ c ∈ run, isForbidden c = true) → run ≠ [] →
      lastNot isForbidden pre = true → headNot isForbidden post = true →
      collapseRuns isForbidden '-' false (pre ++ run ++ post) =
        collapseRuns isForbidden '-' false pre ++
          '-' :: collapseRuns isForbidden '-' false post) ∧
    sanitize_filename "My/Bad:Title*?" 140 = "My-Bad-Title-" := by
  constructor
  · intro pre run post h1 h2 h3 h4
    exact collapseRuns_split isForbidden '-' false pre run post h1 h2 (fun _ => rfl) h3 h4
  · decide

/-- C3 (witness): the amended run-replacement law applied at
`pre = "My"`, `run = "/"`, `post = "Bad"`. -/
theorem sanitize_filename_run_semantics_witness :
    collapseRuns isForbidden '-' false ("My".data ++ "/".data ++ "Bad".data) =
      collapseRuns isForbidden '-' false "My".data ++
        '-' :: collapseRuns isForbidden '-' false "Bad".data :=
  sanitize_filename_run_semantics.1 "My".data "/".data "Bad".data
    (by decide) (by decide) (by decide) (by decide)


/-! ## C5 / C8: behaviour of `decode_b64url` -/

theorem exceptMap_isOk {α β γ : Type} (f : α → β) (e : Except γ α) :
    (Except.map f e).isOk = e.isOk := by
  cases e <;> rfl

theorem a2b_alphabet_ok :
    ∀ (bs : List Nat), (∀ b ∈ bs, (b64val b).isSome = true) → ∀ (qp lc : Nat), qp < 4 →
    (((qp + bs.length) % 4 = 0 → (a2b_base64 bs qp lc 0).isOk = true) ∧
     ((qp + bs.length) % 4 = 2 → (a2b_base64 (bs ++ [61, 61]) qp lc 0).isOk = true) ∧
     ((qp + bs.length) % 4 = 3 → (a2b_base64 (bs ++ [61]) qp lc 0).isOk = true)) := by
  intro bs
  induction bs with
  | nil =>
    intro _ qp lc hqp
    refine ⟨?_, ?_, ?_⟩ <;> intro hm <;> simp only [List.length_nil, Nat.add_zero] at hm
    · have h0 : qp = 0 := by omega
      subst h0; rfl
    · have h2 : qp = 2 := by omega
      subst h2; rfl
    · have h3 : qp = 3 := by omega
      subst h3; rfl
  | cons b bs' ih =>
    intro hall qp lc hqp
    have hb : (b64val b).isSome = true := hall b (List.mem_cons_self _ _)
    have hall' : ∀ x ∈ bs', (b64val x).isSome = true :=
      fun x hx => hall x (List.mem_cons_of_mem _ hx)
    obtain ⟨v, hv⟩ := Option.isSome_iff_exists.mp hb
    have hb61 : ¬(b = 61) := by
      intro he
      rw [he] at hv
      simp [b64val] at hv
    interval_cases qp
    · refine ⟨?_, ?_, ?_⟩ <;> intro hm <;>
        simp only [List.cons_append, a2b_base64, if_neg hb61, hv] <;>
        simp only [List.length_cons] at hm
      · exact ((ih hall' 1 v (by omega)).1) (by omega)
      · exact ((ih hall' 1 v (by omega)).2.1) (by omega)
      · exact ((ih hall' 1 v (by omega)).2.2) (by omega)
    · refine ⟨?_, ?_, ?_⟩ <;> intro hm <;>
        simp only [List.cons_append, a2b_base64, if_neg hb61, hv, exceptMap_isOk] <;>
        simp only [List.length_cons] at hm
      · exact ((ih hall' 2 (v % 16) (by omega)).1) (by omega)
      · exact ((ih hall' 2 (v % 16) (by omega)).2.1) (by omega)
      · exact ((ih hall' 2 (v % 16) (by omega)).2.2) (by omega)
    · refine ⟨?_, ?_, ?_⟩ <;> intro hm <;>
        simp only [List.cons_append, a2b_base64, if_neg hb61, hv, exceptMap_isOk] <;>
        simp only [List.length_cons] at hm
      · exact ((ih hall' 3 (v % 4) (by omega)).1) (by omega)
      · exact ((ih hall' 3 (v % 4) (by omega)).2.1) (by omega)
      · exact ((ih hall' 3 (v % 4) (by omega)).2.2) (by omega)
    · refine ⟨?_, ?_, ?_⟩ <;> intro hm <;>
        simp only [List.cons_append, a2b_base64, if_neg hb61, hv, exceptMap_isOk] <;>
        simp only [List.length_cons] at hm
      · exact ((ih hall' 0 0 (by omega)).1) (by omega)
      · exact ((ih hall' 0 0 (by omega)).2.1) (by omega)
      · exact ((ih hall' 0 0 (by omega)).2.2) (by omega)

theorem utf8Encode_append (l₁ l₂ : List Char) :
    utf8Encode (l₁ ++ l₂) = utf8Encode l₁ ++ utf8Encode l₂ := by
  induction l₁ with
  | nil => rfl
  | cons c cs ih => simp [utf8Encode, ih]

theorem utf8Encode_ascii {l : List Char} (h : ∀ c ∈ l, c.toNat < 128) :
    utf8Encode l = l.map Char.toNat := by
  induction l with
  | nil => rfl
  | cons c cs ih =>
    have hc : c.toNat < 128 := h c (List.mem_cons_self _ _)
    have : utf8Bytes c = [c.toNat] := by
      unfold utf8Bytes
      rw [if_pos hc]
    simp [utf8Encode, this, ih (fun x hx => h x (List.mem_cons_of_mem _ hx))]

theorem b64UrlChar_bounds {c : Char} (h : isB64UrlChar c = true) :
    (65 ≤ c.toNat ∧ c.toNat ≤ 90) ∨ (97 ≤ c.toNat ∧ c.toNat ≤ 122) ∨
    (48 ≤ c.toNat ∧ c.toNat ≤ 57) ∨ c.toNat = 45 ∨ c.toNat = 95 := by
  unfold isB64UrlChar at h
  simp only [Bool.or_eq_true, Bool.and_eq_true, decide_eq_true_eq] at h
  tauto

theorem b64UrlChar_lt128 {c : Char} (h : isB64UrlChar c = true) : c.toNat < 128 := by
  rcases b64UrlChar_bounds h with h' | h' | h' | h' | h' <;> omega

theorem b64UrlChar_translate_some {c : Char} (h : isB64UrlChar c = true) :
    (b64val (urlsafeTranslate c.toNat)).isSome = true := by
  rcases b64UrlChar_bounds h with h' | h' | h' | h' | h' <;>
    unfold urlsafeTranslate b64val <;> split_ifs <;> simp_all

/-- On an all-alphabet input, the byte list handed to `a2b_base64` is the
translated character values followed by the appended padding. -/
theorem decode_bytes_shape (s : String) (halpha : s.data.all isB64UrlChar = true)
    (hr : s.length % 4 ≠ 0) :
    (utf8Encode (b64AutoPad s).data).map urlsafeTranslate =
      s.data.map (fun c => urlsafeTranslate c.toNat) ++
        List.replicate (4 - s.length % 4) 61 := by
  have hall : ∀ c ∈ s.data, isB64UrlChar c = true := List.all_eq_true.mp halpha
  have hlt : ∀ c ∈ s.data, c.toNat < 128 := fun c hc => b64UrlChar_lt128 (hall c hc)
  unfold b64AutoPad
  rw [if_neg hr]
  have hdata : (s ++ (⟨List.replicate (4 - s.length % 4) '='⟩ : String)).data =
      s.data ++ List.replicate (4 - s.length % 4) '=' := rfl
  rw [hdata, utf8Encode_append, utf8Encode_ascii hlt]
  have hpad : utf8Encode (List.replicate (4 - s.length % 4) '=') =
      List.replicate (4 - s.length % 4) 61 := by
    rw [utf8Encode_ascii (by intro c hc; rw [List.eq_of_mem_replicate hc]; decide)]
    simp [List.map_replicate]
  rw [hpad, List.map_append, List.map_map, List.map_replicate]
  rfl

/-- Helper: `decode_b64url` succeeds on any all-alphabet payload whose
length is not ≡ 1 (mod 4). -/
theorem decode_b64url_alphabet_isOk (s : String)
    (halpha : s.data.all isB64UrlChar = true) (hlen : s.length % 4 ≠ 1) :
    (decode_b64url s).isOk = true := by
  by_cases hs : s = ""
  · subst hs; rfl
  · unfold decode_b64url
    rw [if_neg hs, exceptMap_isOk]
    have hall : ∀ c ∈ s.data, isB64UrlChar c = true := List.all_eq_true.mp halpha
    have hsome : ∀ b ∈ s.data.map (fun c => urlsafeTranslate c.toNat),
        (b64val b).isSome = true := by
      intro b hb
      obtain ⟨c, hc, rfl⟩ := List.mem_map.mp hb
      exact b64UrlChar_translate_some (hall c hc)
    have hmlen : (s.data.map (fun c => urlsafeTranslate c.toNat)).length = s.length := by
      rw [List.length_map]
      rfl
    by_cases h0 : s.length % 4 = 0
    · have hpads : b64AutoPad s = s := by unfold b64AutoPad; rw [if_pos h0]
      rw [hpads, utf8Encode_ascii (fun c hc => b64UrlChar_lt128 (hall c hc)),
        List.map_map]
      have := (a2b_alphabet_ok (s.data.map (fun c => urlsafeTranslate c.toNat))
        hsome 0 0 (by omega)).1
      rw [hmlen] at this
      exact this (by omega)
    · rw [decode_bytes_shape s halpha h0]
      by_cases h2 : s.length % 4 = 2
      · have hrep : List.replicate (4 - s.length % 4) 61 = [61, 61] := by
          rw [h2]
          rfl
        rw [hrep]
        have := (a2b_alphabet_ok (s.data.map (fun c => urlsafeTranslate c.toNat))
          hsome 0 0 (by omega)).2.1
        rw [hmlen] at this
        exact this (by omega)
      · have h3 : s.length % 4 = 3 := by omega
        have hrep : List.replicate (4 - s.length % 4) 61 = [61] := by
          rw [h3]
          rfl
        rw [hrep]
        have := (a2b_alphabet_ok (s.data.map (fun c => urlsafeTranslate c.toNat))
          hsome 0 0 (by omega)).2.2
        rw [hmlen] at this
        exact this (by omega)

/-- C5 (counterexample): `decode_b64url` is not total.  On input `"a"` the
auto-padded string is `"a==="`, which has one data character — one more
than a multiple of 4 — so `binascii.a2b_base64` raises `binascii.Error`,
which propagates out of `decode_b64url` (and would abort the tree walk). -/
theorem decode_b64url_cex : decode_b64url "a" = .error () := rfl

/-- C5 (amended): `decode_b64url` tolerates missing padding by
right-padding with `=` to the next multiple of 4, and succeeds — with any
undecodable UTF-8 bytes replaced, never fatally — for every payload drawn
from the URL-safe base64 alphabet whose length is not congruent to
1 modulo 4.  (It is not total on arbitrary strings: see the
counterexample.) -/
theorem decode_b64url_succeeds (s : String)
    (halpha : s.data.all isB64UrlChar = true) (hlen : s.length % 4 ≠ 1) :
    (decode_b64url s).isOk = true :=
  decode_b64url_alphabet_isOk s halpha hlen

/-- C5 (witness): the amended claim at the concrete payload `"aGk"`. -/
theorem decode_b64url_succeeds_witness : (decode_b64url "aGk").isOk = true :=
  decode_b64url_succeeds "aGk" (by decide) (by decide)

/-- C8 (counterexample): a payload whose length is not a multiple of 4 on
which `decode_b64url` does **not** succeed: `"abcde"` (length 5) raises. -/
theorem decode_b64url_pad_cex :
    decode_b64url "abcde" = .error () ∧ "abcde".length % 4 ≠ 0 :=
  ⟨rfl, by decide⟩

/-- C8 (amended): for every payload over the URL-safe base64 alphabet
whose length is ≢ 0 and ≢ 1 (mod 4), `decode_b64url` succeeds and its
result is byte-for-byte the result of decoding the same payload manually
right-padded with `=` to the next multiple of 4. -/
theorem decode_b64url_pad_equiv (s : String)
    (halpha : s.data.all isB64UrlChar = true)
    (h0 : s.length % 4 ≠ 0) (h1 : s.length % 4 ≠ 1) :
    (decode_b64url s).isOk = true ∧
    decode_b64url s =
      decode_b64url (s ++ ⟨List.replicate (4 - s.length % 4) '='⟩) := by
  have hs : ¬(s = "") := by
    intro he
    subst he
    simp at h0
  have hklen : (⟨List.replicate (4 - s.length % 4) '='⟩ : String).length =
      4 - s.length % 4 := by
    show (List.replicate (4 - s.length % 4) '=').length = _
    exact List.length_replicate _ _
  have hlen2 : (s ++ (⟨List.replicate (4 - s.length % 4) '='⟩ : String)).length % 4 = 0 := by
    rw [String.length_append, hklen]
    omega
  have hne2 : ¬(s ++ (⟨List.replicate (4 - s.length % 4) '='⟩ : String) = "") := by
    intro he
    have := congrArg String.length he
    rw [String.length_append, hklen] at this
    have hz : ("" : String).length = 0 := rfl
    rw [hz] at this
    omega
  refine ⟨decode_b64url_alphabet_isOk s halpha h1, ?_⟩
  unfold decode_b64url
  rw [if_neg hs, if_neg hne2]
  have hpad1 : b64AutoPad s = s ++ ⟨List.replicate (4 - s.length % 4) '='⟩ := by
    unfold b64AutoPad
    rw [if_neg h0]
  have hpad2 : b64AutoPad (s ++ ⟨List.replicate (4 - s.length % 4) '='⟩) =
      s ++ ⟨List.replicate (4 - s.length % 4) '='⟩ := by
    unfold b64AutoPad
    rw [if_pos hlen2]
  rw [hpad1, hpad2]

/-- C8 (witness): the amended claim at the concrete payload `"aG"`. -/
theorem decode_b64url_pad_equiv_witness :
    (decode_b64url "aG").isOk = true ∧
    decode_b64url "aG" =
      decode_b64url ("aG" ++ ⟨List.replicate (4 - "aG".length % 4) '='⟩) :=
  decode_b64url_pad_equiv "aG" (by decide) (by decide) (by decide)


/-! ## C1: `extract_best_body` returns the leftmost depth-first candidate -/

theorem strTruthy_of_inv {o : Option String} (h : ∀ x, o = some x → x ≠ "") :
    strTruthy o = o.isSome := by
  cases o with
  | none => rfl
  | some x =>
    have hx := h x rfl
    simp [strTruthy, hx]

theorem option_map_or {α β : Type} (f : α → β) (a b : Option α) :
    (a.or b).map f = (a.map f).or (b.map f) := by
  cases a <;> rfl

theorem option_or_inv {a b : Option String}
    (ha : ∀ x, a = some x → x ≠ "") (hb : ∀ x, b = some x → x ≠ "") :
    ∀ x, a.or b = some x → x ≠ "" := by
  intro x hx
  cases a with
  | none => exact hb x hx
  | some y =>
    rw [Option.or_some] at hx
    exact ha x hx

theorem merge_candidate_eq {h hc : Option String}
    (hh : ∀ x, h = some x → x ≠ "") (hhc : ∀ x, hc = some x → x ≠ "") :
    (if strTruthy h && !(strTruthy hc) then h else hc) = hc.or h := by
  rw [strTruthy_of_inv hh, strTruthy_of_inv hhc]
  cases hc <;> cases h <;> simp [Option.or]

theorem goodList_mem {ps : List MessagePart} (h : goodList ps = true) :
    ∀ p ∈ ps, goodTree p = true := by
  induction ps with
  | nil => intro p hp; simp at hp
  | cons q rest ih =>
    intro p hp
    simp only [goodList, Bool.and_eq_true] at h
    rcases List.mem_cons.mp hp with rfl | hp'
    · exact h.1
    · exact ih h.2 p hp'

theorem firstDataList_mem {t : String} {ps : List MessagePart} {d : String}
    (h : firstDataList t ps = some d) : ∃ p ∈ ps, firstData t p = some d := by
  induction ps with
  | nil => simp [firstDataList] at h
  | cons p rest ih =>
    simp only [firstDataList] at h
    cases hf : firstData t p with
    | some x =>
      rw [hf, Option.or_some] at h
      exact ⟨p, List.mem_cons_self _ _, hf.trans h⟩
    | none =>
      rw [hf, Option.none_or] at h
      obtain ⟨q, hq, h2⟩ := ih h
      exact ⟨q, List.mem_cons_of_mem _ hq, h2⟩

theorem extract_children_good :
    ∀ (ps : List MessagePart),
    (∀ p ∈ ps, extract_part p =
      .ok ((firstData "text/html" p).map decVal,
           (firstData "text/plain" p).map decVal)) →
    (∀ p ∈ ps, ∀ d, firstData "text/html" p = some d → decVal d ≠ "") →
    (∀ p ∈ ps, ∀ d, firstData "text/plain" p = some d → decVal d ≠ "") →
    ∀ hc tc, (∀ x, hc = some x → x ≠ "") → (∀ x, tc = some x → x ≠ "") →
    extract_children ps hc tc =
      .ok (hc.or ((firstDataList "text/html" ps).map decVal),
           tc.or ((firstDataList "text/plain" ps).map decVal)) := by
  intro ps
  induction ps with
  | nil =>
    intro _ _ _ hc tc _ _
    simp [extract_children, firstDataList, Option.or_none]
  | cons p rest ih =>
    intro hIH hH hT hc tc hhc htc
    have hp := hIH p (List.mem_cons_self _ _)
    have hinvH : ∀ x, (firstData "text/html" p).map decVal = some x → x ≠ "" := by
      intro x hx
      obtain ⟨d, hd, he⟩ := Option.map_eq_some'.mp hx
      rw [← he]
      exact hH p (List.mem_cons_self _ _) d hd
    have hinvT : ∀ x, (firstData "text/plain" p).map decVal = some x → x ≠ "" := by
      intro x hx
      obtain ⟨d, hd, he⟩ := Option.map_eq_some'.mp hx
      rw [← he]
      exact hT p (List.mem_cons_self _ _) d hd
    simp only [extract_children, hp]
    rw [merge_candidate_eq hinvH hhc, merge_candidate_eq hinvT htc]
    rw [ih (fun q hq => hIH q (List.mem_cons_of_mem _ hq))
        (fun q hq => hH q (List.mem_cons_of_mem _ hq))
        (fun q hq => hT q (List.mem_cons_of_mem _ hq))
        _ _ (option_or_inv hhc hinvH) (option_or_inv htc hinvT)]
    simp only [firstDataList, option_map_or, Option.or_assoc]

theorem extract_part_good :
    ∀ (n : Nat) (p : MessagePart), sizeOf p ≤ n → goodTree p = true →
    (extract_part p =
      .ok ((firstData "text/html" p).map decVal,
           (firstData "text/plain" p).map decVal)) ∧
    (∀ d, firstData "text/html" p = some d → decVal d ≠ "") ∧
    (∀ d, firstData "text/plain" p = some d → decVal d ≠ "") := by
  intro n
  induction n with
  | zero =>
    intro p hle
    exfalso
    cases p with
    | mk m d ps =>
      simp only [MessagePart.mk.sizeOf_spec] at hle
      omega
  | succ n ih =>
    intro p hle hgood
    cases p with
    | mk mime data parts =>
      simp only [goodTree, Bool.and_eq_true] at hgood
      obtain ⟨hdata, hlist⟩ := hgood
      have hsz : ∀ q ∈ parts, sizeOf q ≤ n := by
        intro q hq
        have h1 := List.sizeOf_lt_of_mem hq
        simp only [MessagePart.mk.sizeOf_spec] at hle
        omega
      have hchild := fun q hq => ih q (hsz q hq) (goodList_mem hlist q hq)
      by_cases hg1 : (mime == some "text/html" && strTruthy data) = true
      · rw [Bool.and_eq_true] at hg1
        obtain ⟨hmime, htruthy⟩ := hg1
        have hg1 : (mime == some "text/html" && strTruthy data) = true := by
          rw [Bool.and_eq_true]
          exact ⟨hmime, htruthy⟩
        cases data with
        | none => simp [strTruthy] at htruthy
        | some dd =>
          have hdd : ¬(dd = "") := by
            simp only [strTruthy] at htruthy
            simpa using htruthy
          have hdata2 : ((dd == "") ||
              (parts.isEmpty &&
                (match decode_b64url dd with
                 | .ok r => !(r == "")
                 | .error _ => false))) = true := hdata
          rw [show (dd == "") = false from beq_eq_false_iff_ne.mpr hdd,
            Bool.false_or, Bool.and_eq_true] at hdata2
          obtain ⟨hempty, hdec⟩ := hdata2
          have hparts : parts = [] := List.isEmpty_iff.mp hempty
          subst hparts
          cases hde : decode_b64url dd with
          | error e => rw [hde] at hdec; simp at hdec
          | ok r =>
            rw [hde] at hdec
            have hr : ¬(r = "") := by simpa using hdec
            have hdv : decVal dd = r := by
              unfold decVal
              rw [hde]
              rfl
            have hmime' : mime = some "text/html" := by simpa using hmime
            have hpl : (mime == some "text/plain") = false := by
              rw [hmime']
              decide
            refine ⟨?_, ?_, ?_⟩
            · simp [extract_part, hg1, hpl, hde, hdv, Except.map, firstData,
                firstDataList]
            · intro d hd
              simp only [firstData, hg1, if_true] at hd
              cases hd
              rw [hdv]
              exact hr
            · intro d hd
              simp [firstData, hpl, firstDataList] at hd
      · by_cases hg2 : (mime == some "text/plain" && strTruthy data) = true
        · rw [Bool.and_eq_true] at hg2
          obtain ⟨hmime, htruthy⟩ := hg2
          have hg2 : (mime == some "text/plain" && strTruthy data) = true := by
            rw [Bool.and_eq_true]
            exact ⟨hmime, htruthy⟩
          cases data with
          | none => simp [strTruthy] at htruthy
          | some dd =>
            have hdd : ¬(dd = "") := by
              simp only [strTruthy] at htruthy
              simpa using htruthy
            have hdata2 : ((dd == "") ||
                (parts.isEmpty &&
                  (match decode_b64url dd with
                   | .ok r => !(r == "")
                   | .error _ => false))) = true := hdata
            rw [show (dd == "") = false from beq_eq_false_iff_ne.mpr hdd,
              Bool.false_or, Bool.and_eq_true] at hdata2
            obtain ⟨hempty, hdec⟩ := hdata2
            have hparts : parts = [] := List.isEmpty_iff.mp hempty
            subst hparts
            cases hde : decode_b64url dd with
            | error e => rw [hde] at hdec; simp at hdec
            | ok r =>
              rw [hde] at hdec
              have hr : ¬(r = "") := by simpa using hdec
              have hdv : decVal dd = r := by
                unfold decVal
                rw [hde]
                rfl
              have hmime' : mime = some "text/plain" := by simpa using hmime
              have hht : (mime == some "text/html") = false := by
                rw [hmime']
                decide
              refine ⟨?_, ?_, ?_⟩
              · rw [show extract_part (MessagePart.mk mime (some dd) []) =
                    (decode_b64url ((some dd).getD "")).map (fun s => (none, some s)) from by
                  simp only [extract_part]
                  rw [if_neg hg1, if_pos hg2]]
                simp [hde, hdv, Except.map, firstData, firstDataList, hg2, hht]
              · intro d hd
                simp [firstData, hht, firstDataList] at hd
              · intro d hd
                simp only [firstData, hg2, if_true] at hd
                cases hd
                rw [hdv]
                exact hr
        · have hrec := extract_children_good parts
            (fun q hq => (hchild q hq).1)
            (fun q hq => (hchild q hq).2.1)
            (fun q hq => (hchild q hq).2.2)
            none none (fun x hx => by cases hx) (fun x hx => by cases hx)
          have hfh : firstData "text/html" (MessagePart.mk mime data parts) =
              firstDataList "text/html" parts := by
            simp only [firstData]
            rw [if_neg hg1]
          have hfp : firstData "text/plain" (MessagePart.mk mime data parts) =
              firstDataList "text/plain" parts := by
            simp only [firstData]
            rw [if_neg hg2]
          refine ⟨?_, ?_, ?_⟩
          · simp only [extract_part]
            rw [if_neg hg1, if_neg hg2, hrec]
            simp only [Option.none_or, hfh, hfp]
          · intro d hd
            rw [hfh] at hd
            obtain ⟨q, hq, h2⟩ := firstDataList_mem hd
            exact (hchild q hq).2.1 d h2
          · intro d hd
            rw [hfp] at hd
            obtain ⟨q, hq, h2⟩ := firstDataList_mem hd
            exact (hchild q hq).2.2 d h2

/-- C1 (counterexample): the claim fails as stated.  `cexTree` contains a
`text/html` leaf with payload `"aGk="` (which decodes to `"hi"`), yet the
extractor does not return that payload for its leftmost HTML leaf: the
earlier `text/plain` sibling's payload `"a"` makes `decode_b64url` raise
`binascii.Error`, which aborts the whole tree walk. -/
theorem extract_best_body_cex :
    firstData "text/html" cexTree = some "aGk=" ∧
    decode_b64url "aGk=" = .ok "hi" ∧
    extract_best_body (some cexTree) = .error () := by
  refine ⟨?_, rfl, ?_⟩
  · simp [cexTree, firstData, firstDataList, strTruthy]
  · have ha : decode_b64url "a" = .error () := rfl
    simp [cexTree, extract_best_body, extract_part, extract_children, strTruthy, ha,
      Except.map]

/-- C1 (amended): an absent tree (and the all-absent empty part) yields
`(none, none)`; and for every tree in which each payload-bearing node is a
leaf whose payload decodes without exception to a non-empty string, the
extractor succeeds and returns exactly the decoded payload of the leftmost
depth-first `text/html` node with a payload in the html slot (`none` when
no such node exists), and independently the leftmost `text/plain` payload
in the text slot — candidates merged first-non-empty-wins, never
overwritten once set. -/
theorem extract_best_body_leftmost :
    extract_best_body none = .ok (none, none) ∧
    extract_best_body (some (.mk none none [])) = .ok (none, none) ∧
    ∀ p : MessagePart, goodTree p = true →
      extract_best_body (some p) =
        .ok ((firstData "text/html" p).map decVal,
             (firstData "text/plain" p).map decVal) := by
  refine ⟨rfl, ?_, ?_⟩
  · simp [extract_best_body, extract_part, extract_children, strTruthy]
  · intro p hp
    exact (extract_part_good (sizeOf p) p (Nat.le_refl _) hp).1

/-- C1 (witness): the amended claim at the concrete tree `witTree`,
whose extraction returns `(some "hi", some "text")`. -/
theorem extract_best_body_leftmost_witness :
    extract_best_body (some witTree) =
      .ok ((firstData "text/html" witTree).map decVal,
           (firstData "text/plain" witTree).map decVal) :=
  extract_best_body_leftmost.2.2 witTree (by
    have h1 : decode_b64url "dGV4dA==" = .ok "text" := rfl
    have h2 : decode_b64url "aGk=" = .ok "hi" := rfl
    simp [witTree, goodTree, goodList, h1, h2])


/-! ## C6: document layout of `build_markdown` -/

/-- C6 (counterexample): there is **no** blank line between the level-1
heading and the body: `"\n".join(fm)` ends with `"# <title>\n"` (the
final `""` element contributes only the separator) and the stripped body
is concatenated directly after it. -/
theorem build_markdown_cex :
    build_markdown "T" "F" "G" "D" "M" "body" =
      "---\ntitle: \"T\"\nfrom: \"F\"\nto: \"G\"\ndate: \"D\"\nmessage_id: \"M\"\nsource: gmail\n---\n\n# T\nbody\n" ∧
    build_markdown "T" "F" "G" "D" "M" "body" ≠
      "---\ntitle: \"T\"\nfrom: \"F\"\nto: \"G\"\ndate: \"D\"\nmessage_id: \"M\"\nsource: gmail\n---\n\n# T\n\nbody\n" := by
  constructor
  · rfl
  · decide

/-- C6 (amended): the document is the metadata block delimited by `---`
lines, with title, from, to, display date, message id and the fixed
`source: gmail` tag in order; a blank line; a level-1 heading repeating
the title; then the converted body trimmed of surrounding whitespace
**immediately on the next line** (no blank line after the heading),
followed by one final newline.  Metadata values have every double quote
replaced by a single quote and are trimmed. -/
theorem build_markdown_layout :
    (∀ s f t d m c : String,
      build_markdown s f t d m c =
        "---" ++ "\n" ++
        ("title: \"" ++ yaml_safe s ++ "\"" ++ "\n" ++
        ("from: \"" ++ yaml_safe f ++ "\"" ++ "\n" ++
        ("to: \"" ++ yaml_safe t ++ "\"" ++ "\n" ++
        ("date: \"" ++ yaml_safe d ++ "\"" ++ "\n" ++
        ("message_id: \"" ++ yaml_safe m ++ "\"" ++ "\n" ++
        ("source: gmail" ++ "\n" ++
        ("---" ++ "\n" ++
        ("" ++ "\n" ++
        ("# " ++ yaml_safe s ++ "\n" ++ ""))))))))) ++
        pyStrip c ++ "\n") ∧
    (∀ s : String, (yaml_safe s).data.all (fun ch => !(ch == '\"')) = true) ∧
    (∀ s : String, headNot isPySpace (yaml_safe s).data = true ∧
      lastNot isPySpace (yaml_safe s).data = true) := by
  refine ⟨?_, ?_, ?_⟩
  · intro s f t d m c
    by_cases hd : d = ""
    · subst hd
      rfl
    · have hcond : (!(d == "")) = true := by
        simp [hd]
      simp only [build_markdown]
      rw [if_pos hcond]
      rfl
  · intro s
    rw [List.all_eq_true]
    intro ch hch
    have h1 : ch ∈ (s.data.map (fun c => if c = '\"' then Char.ofNat 39 else c)) :=
      mem_pyStripL hch
    obtain ⟨c, _, he⟩ := List.mem_map.mp h1
    by_cases hc : c = '\"'
    · rw [if_pos hc] at he
      rw [← he]
      decide
    · rw [if_neg hc] at he
      rw [← he]
      simpa using hc
  · intro s
    constructor
    · unfold headNot
      rcases hh : (yaml_safe s).data.head? with _ | ⟨c⟩
      · rfl
      · simp [head_pyStripL hh]
    · unfold lastNot
      rcases hh : (yaml_safe s).data.getLast? with _ | ⟨c⟩
      · rfl
      · simp [getLast_pyStripL hh]


/-! ## C4: the Orderer sorts successes ascending, stably -/

theorem mem_insertStable {x z : GMsg × Int} {l : List (GMsg × Int)}
    (h : z ∈ insertStable x l) : z = x ∨ z ∈ l := by
  induction l with
  | nil => simpa [insertStable] using h
  | cons y ys ih =>
    simp only [insertStable] at h
    by_cases hle : x.2 ≤ y.2
    · rw [if_pos hle] at h
      rcases List.mem_cons.mp h with h1 | h1
      · exact Or.inl h1
      · exact Or.inr h1
    · rw [if_neg hle] at h
      rcases List.mem_cons.mp h with h1 | h1
      · exact Or.inr (h1 ▸ List.mem_cons_self _ _)
      · rcases ih h1 with h2 | h2
        · exact Or.inl h2
        · exact Or.inr (List.mem_cons_of_mem _ h2)

theorem sorted_insertStable {x : GMsg × Int} {l : List (GMsg × Int)}
    (h : l.Pairwise (fun a b => a.2 ≤ b.2)) :
    (insertStable x l).Pairwise (fun a b => a.2 ≤ b.2) := by
  induction l with
  | nil => simp [insertStable]
  | cons y ys ih =>
    rcases List.pairwise_cons.mp h with ⟨hy, hys⟩
    simp only [insertStable]
    by_cases hle : x.2 ≤ y.2
    · rw [if_pos hle]
      refine List.pairwise_cons.mpr ⟨?_, h⟩
      intro z hz
      rcases List.mem_cons.mp hz with rfl | hz'
      · exact hle
      · exact le_trans hle (hy z hz')
    · rw [if_neg hle]
      refine List.pairwise_cons.mpr ⟨?_, ih hys⟩
      intro z hz
      rcases mem_insertStable hz with rfl | hz'
      · exact le_of_not_le hle
      · exact hy z hz'

theorem sorted_sortByKey (l : List (GMsg × Int)) :
    (sortByKey l).Pairwise (fun a b => a.2 ≤ b.2) := by
  induction l with
  | nil => simp [sortByKey]
  | cons x xs ih => exact sorted_insertStable ih

theorem mem_sortByKey {p : GMsg × Int} {l : List (GMsg × Int)}
    (h : p ∈ sortByKey l) : p ∈ l := by
  induction l with
  | nil => simp [sortByKey] at h
  | cons x xs ih =>
    simp only [sortByKey] at h
    rcases mem_insertStable h with rfl | h'
    · exact List.mem_cons_self _ _
    · exact List.mem_cons_of_mem _ (ih h')

theorem filter_insertStable (k : Int) (x : GMsg × Int) (l : List (GMsg × Int)) :
    (insertStable x l).filter (fun y => y.2 == k) =
      (if x.2 == k then [x] else []) ++ l.filter (fun y => y.2 == k) := by
  induction l with
  | nil =>
    by_cases hx : x.2 == k <;> simp [insertStable, List.filter_cons, hx]
  | cons y ys ih =>
    simp only [insertStable]
    by_cases hle : x.2 ≤ y.2
    · rw [if_pos hle]
      by_cases hx : x.2 == k <;> simp [List.filter_cons, hx]
    · rw [if_neg hle]
      by_cases hy : y.2 == k
      · have hyk : y.2 = k := by simpa using hy
        have hx : (x.2 == k) = false := by
          have hlt : y.2 < x.2 := lt_of_not_le hle
          have : ¬(x.2 = k) := by omega
          simpa using this
        simp [List.filter_cons, hy, ih, hx]
      · simp only [List.filter_cons, hy]
        rw [ih]
        by_cases hx : x.2 == k <;> simp [hx, List.filter_cons, hy]
    
theorem filter_sortByKey (k : Int) (l : List (GMsg × Int)) :
    (sortByKey l).filter (fun y => y.2 == k) = l.filter (fun y => y.2 == k) := by
  induction l with
  | nil => rfl
  | cons x xs ih =>
    simp only [sortByKey]
    rw [filter_insertStable, ih]
    by_cases hx : x.2 == k <;> simp [List.filter_cons, hx]

theorem attachKeys_ok {ms : List GMsg} (h : ∀ m ∈ ms, (msgKey m).isOk = true) :
    ∃ keyed, attachKeys ms = .ok keyed ∧ keyed.map Prod.fst = ms ∧
      ∀ p ∈ keyed, msgKey p.1 = .ok p.2 := by
  induction ms with
  | nil => exact ⟨[], rfl, rfl, by intro p hp; simp at hp⟩
  | cons m ms' ih =>
    have hm := h m (List.mem_cons_self _ _)
    cases hk : msgKey m with
    | error e =>
      rw [hk] at hm
      simp [Except.isOk, Except.toBool] at hm
    | ok k =>
      obtain ⟨keyed', h1, h2, h3⟩ := ih (fun q hq => h q (List.mem_cons_of_mem _ hq))
      refine ⟨(m, k) :: keyed', ?_, ?_, ?_⟩
      · simp only [attachKeys, hk, h1, Except.map]
      · simp [h2]
      · intro p hp
        rcases List.mem_cons.mp hp with rfl | hp'
        · exact hk
        · exact h3 p hp'

/-- C4 (counterexample): a message with a non-numeric `internalDate` does
**not** sort as timestamp zero — `int("not-a-number")` raises
`ValueError`, so the whole sort raises instead of producing a list. -/
theorem fetch_and_sort_cex :
    fetch_and_sort [.ok ⟨"B", some "not-a-number"⟩] = .error () := rfl

/-- C4 (amended): failed fetches are excluded; when every remaining
message's `internalDate` parses (a missing one is `"0"` and sorts as
timestamp zero, earliest), the sort succeeds, is ascending in the key, and
is stable — for each key value the messages with that key appear in fetch
order; concretely, with A fetched at 300, B failed and C fetched at 200,
the output is `[C, A]`.  A non-numeric timestamp instead raises (see the
counterexample). -/
theorem fetch_and_sort_spec :
    (∀ results : List (Except Unit GMsg),
      (∀ m ∈ collectSuccesses results, (msgKey m).isOk = true) →
      ∃ l, fetch_and_sort results = .ok l ∧
        l.Pairwise (fun a b => keyOf a ≤ keyOf b) ∧
        ∀ k : Int, l.filter (fun m => keyOf m == k) =
          (collectSuccesses results).filter (fun m => keyOf m == k)) ∧
    (∀ m : GMsg, m.internalDate = none → msgKey m = .ok 0) ∧
    fetch_and_sort [.ok ⟨"A", some "300"⟩, .error (), .ok ⟨"C", some "200"⟩] =
      .ok [⟨"C", some "200"⟩, ⟨"A", some "300"⟩] := by
  refine ⟨?_, ?_, rfl⟩
  · intro results h
    obtain ⟨keyed, h1, h2, h3⟩ := attachKeys_ok h
    have hmem : ∀ p ∈ sortByKey keyed, keyOf p.1 = p.2 := by
      intro p hp
      have hp' : p ∈ keyed := mem_sortByKey hp
      unfold keyOf
      rw [h3 p hp']
      rfl
    have hmem' : ∀ p ∈ keyed, keyOf p.1 = p.2 := by
      intro p hp
      unfold keyOf
      rw [h3 p hp]
      rfl
    refine ⟨(sortByKey keyed).map (fun x => x.1), ?_, ?_, ?_⟩
    · simp only [fetch_and_sort, h1]
    · rw [List.pairwise_map]
      refine (sorted_sortByKey keyed).imp_of_mem ?_
      intro a b ha hb hab
      rw [hmem a ha, hmem b hb]
      exact hab
    · intro k
      rw [← h2, List.filter_map, List.filter_map]
      simp only [Function.comp_def]
      have e1 : (sortByKey keyed).filter (fun q => keyOf q.1 == k) =
          (sortByKey keyed).filter (fun q => q.2 == k) := by
        refine List.filter_congr ?_
        intro p hp
        rw [hmem p hp]
      have e2 : keyed.filter (fun q => keyOf q.1 == k) =
          keyed.filter (fun q => q.2 == k) := by
        refine List.filter_congr ?_
        intro p hp
        rw [hmem' p hp]
      rw [e1, e2, filter_sortByKey]
  · intro m hm
    unfold msgKey
    rw [hm]
    rfl

/-- C4 (witness): the amended claim applied at the one-message input
`[ok ⟨"A", 300⟩]`, discharging the all-keys-parse hypothesis. -/
theorem fetch_and_sort_spec_witness :
    ∃ l, fetch_and_sort [.ok ⟨"A", some "300"⟩] = .ok l ∧
      l.Pairwise (fun a b => keyOf a ≤ keyOf b) ∧
      ∀ k : Int, l.filter (fun m => keyOf m == k) =
        (collectSuccesses [.ok ⟨"A", some "300"⟩]).filter (fun m => keyOf m == k) :=
  fetch_and_sort_spec.1 [.ok ⟨"A", some "300"⟩] (by
    intro m hm
    simp [collectSuccesses, Except.toOption] at hm
    subst hm
    rfl)


/-! ## C7 / C10: pagination -/

theorem listLoop_pageSize (server : GmailServer) (query : String) (maxR : Int) :
    ∀ (fuel : Nat) (msgs : List String) (tok : Option String)
      (log : List (Option String × Nat)),
    (∀ e ∈ log, e.2 ≤ 500) →
    ∀ e ∈ (listLoop server query maxR fuel msgs tok log).2.1, e.2 ≤ 500 := by
  intro fuel
  induction fuel with
  | zero =>
    intro msgs tok log hlog e he
    exact hlog e he
  | succ n ih =>
    intro msgs tok log hlog e he
    simp only [listLoop] at he
    by_cases hrem : (maxR - (msgs.length : Int)) ≤ 0
    · rw [if_pos hrem] at he
      exact hlog e he
    · rw [if_neg hrem] at he
      have hsize : (min 500 (maxR - (msgs.length : Int))).toNat ≤ 500 := by
        omega
      by_cases htok : tokTruthy (server query tok
          (min 500 (maxR - (msgs.length : Int))).toNat).2 = true
      · rw [if_pos htok] at he
        refine ih _ _ _ ?_ e he
        intro e' he'
        rcases List.mem_append.mp he' with h' | h'
        · exact hlog e' h'
        · rcases List.mem_singleton.mp h' with rfl
          exact hsize
      · rw [if_neg htok] at he
        rcases List.mem_append.mp he with h' | h'
        · exact hlog e h'
        · rcases List.mem_singleton.mp h' with rfl
          exact hsize

set_option maxRecDepth 10000 in
/-- C7: (a) every request the paginator ever issues asks for at most 500
ids, whatever the caller's maximum; (b) with a maximum of 650 against a
server with unboundedly many matches, exactly two requests of sizes 500
and 150 are issued and the loop stops even though a token is still
offered; (c) when the server returns no continuation token the loop stops
after that request. -/
theorem gmail_list_all_spec :
    (∀ (server : GmailServer) (query : String) (maxR : Int) (fuel : Nat),
      ∀ e ∈ (gmail_list_all server query maxR fuel).2.1, e.2 ≤ 500) ∧
    gmail_list_all fullServer "q" 650 5 =
      (List.replicate 650 "m", [(none, 500), (some "TOK", 150)], true) ∧
    gmail_list_all oneShotServer "q" 650 5 =
      (List.replicate 500 "m", [(none, 500)], true) := by
  refine ⟨?_, rfl, rfl⟩
  intro server query maxR fuel e he
  exact listLoop_pageSize server query maxR fuel [] none []
    (by intro e' he'; simp at he') e he

set_option maxRecDepth 10000 in
/-- C7 (witness): the page-size bound applied to the first request that
the 650-cap run against `fullServer` actually issues. -/
theorem gmail_list_all_spec_witness : ((none : Option String), 500).2 ≤ 500 :=
  gmail_list_all_spec.1 fullServer "q" 650 5 (none, 500) (by
    rw [show (gmail_list_all fullServer "q" 650 5).2.1 =
      [(none, 500), (some "TOK", 150)] from rfl]
    exact List.mem_cons_self _ _)

/-- C10: a non-positive maximum short-circuits before the first request —
the returned id list and the request log are both empty, for any server
and any fuel. -/
theorem gmail_list_all_nonpositive (server : GmailServer) (query : String)
    (maxR : Int) (fuel : Nat) (h : maxR ≤ 0) :
    (gmail_list_all server query maxR fuel).1 = [] ∧
    (gmail_list_all server query maxR fuel).2.1 = [] := by
  cases fuel with
  | zero => exact ⟨rfl, rfl⟩
  | succ n =>
    unfold gmail_list_all listLoop
    have hrem : (maxR - (([] : List String).length : Int)) ≤ 0 := by
      simp
      omega
    rw [if_pos hrem]
    exact ⟨rfl, rfl⟩

/-- C10 (witness): the short-circuit at maximum 0 against `fullServer`. -/
theorem gmail_list_all_nonpositive_witness :
    (gmail_list_all fullServer "q" 0 3).1 = [] ∧
    (gmail_list_all fullServer "q" 0 3).2.1 = [] :=
  gmail_list_all_nonpositive fullServer "q" 0 3 (by decide)


/-! ## C2: `html_to_markdown` removes script/style/noscript subtrees -/

theorem noBanned_strip :
    ∀ (f1 : Nat) (l : List HNode) (f2 : Nat),
    noBannedGo f2 (stripBannedGo f1 l) = true := by
  intro f1
  induction f1 with
  | zero =>
    intro l f2
    have h0 : stripBannedGo 0 l = [] := by cases l <;> rfl
    rw [h0]
    cases f2 <;> rfl
  | succ f1 ih =>
    intro l f2
    cases l with
    | nil => cases f2 <;> rfl
    | cons n rest =>
      cases n with
      | elem nm attrs kids =>
        by_cases hb : nm ∈ bannedNames
        · simp only [stripBannedGo, if_pos hb]
          exact ih rest f2
        · simp only [stripBannedGo, if_neg hb]
          cases f2 with
          | zero => rfl
          | succ f2' =>
            simp only [noBannedGo, Bool.and_eq_true]
            exact ⟨⟨by simpa using hb, ih kids f2'⟩, ih rest f2'⟩
      | htext s =>
        simp only [stripBannedGo]
        cases f2 with
        | zero => rfl
        | succ f2' => exact ih rest f2'
      | comment s =>
        simp only [stripBannedGo]
        cases f2 with
        | zero => rfl
        | succ f2' => exact ih rest f2'
      | decl s =>
        simp only [stripBannedGo]
        cases f2 with
        | zero => rfl
        | succ f2' => exact ih rest f2'

set_option maxRecDepth 100000 in
/-- C2: decomposition removes every `script`, `style` and `noscript`
element together with its entire subtree — for every input the cleaned
tree contains no such element at any depth — and the converted output of
the pipeline contains neither those tags nor their text content: an input
containing `<script>alert(1)</script>` converts with no `script` and no
`alert(1)` anywhere in the output. -/
theorem html_to_markdown_strips_scripts :
    (∀ (html : String) (f1 f2 : Nat),
      noBannedGo f2 (stripBannedGo f1 (parseHtml html)) = true) ∧
    html_to_markdown "<div>ok<script>alert(1)</script></div>" = "ok" ∧
    hasSubstr (html_to_markdown "<div>ok<script>alert(1)</script></div>")
      "script" = false ∧
    hasSubstr (html_to_markdown "<div>ok<script>alert(1)</script></div>")
      "alert(1)" = false ∧
    html_to_markdown
      "<p>Hello</p><script>alert(1)</script><style>body red</style><noscript>alert(1)</noscript>"
      = "Hello\n\n" := by
  refine ⟨?_, rfl, by decide, by decide, rfl⟩
  intro html f1 f2
  exact noBanned_strip f1 (parseHtml html) f2

end GmailExtractor
